import Mathlib

/-!
Shallow embedding of src/gradcam.py (class CamExtractor, class GradCam).

Conventions of the embedding:
* numpy / torch floating-point values are modelled as exact rationals (ℚ);
  the IEEE non-finite values (NaN / Inf) that the code can produce in its
  normalization step `(cam - min) / (max - min)` are modelled by `none` in
  `Option ℚ`, produced exactly when the divisor is zero.
* a single-batch tensor of shape (C, H, W) is a `Ten3`
  (list of channels, each a matrix = list of rows); `input_image` of shape
  (1, C, H, W) is modelled by its single batch element.
* model layers and the classifier head are opaque callables, exactly as the
  source treats them (`x = module(x)`, `x = self.head(x)` resp.
  `self.head(x, target)`); the head receives the label argument precisely
  when `feed_target` is set.
* the framework's reverse-mode autodiff is modelled by an oracle
  `backward : List ℚ → Ten3` mapping the one-hot gradient seed passed to
  `model_output.backward(gradient=...)` to the gradient tensor that the
  registered hook delivers for the captured activation.  The hook fires
  exactly when `forward_pass_on_convolutions` registered it, i.e. when the
  captured activation (`conv_output`) is present.
* Python exceptions are modelled by `Except String`; `AttributeError` from
  dereferencing the absent (`None`) gradient / activation and torch's
  `IndexError` from an out-of-bounds one-hot assignment become explicit
  error values.
* PIL `Image.resize(size, ANTIALIAS)` is modelled by `pilResize`: `size`
  is a (width, height) pair, as in PIL, and the resampling kernel is an
  antialiasing box average (the spec leaves the exact kernel non-binding;
  the binding facts - the (width, height) argument order and that an 8-bit
  image resamples to 8-bit values - are modelled faithfully).
-/

/-- A 2D float array (matrix), row major: list of rows of rationals. -/
abbrev Mat := List (List ℚ)

/-- A single-batch 3D tensor of shape (channels, H, W). -/
abbrev Ten3 := List Mat

/-- Flatten a list of lists (numpy-style ravel of one nesting level). -/
def lflat {α : Type} (l : List (List α)) : List α :=
  l.foldr (fun a b => a ++ b) []

/-- Sum of a list of rationals. -/
def lsum (l : List ℚ) : ℚ := l.foldr (fun a b => a + b) 0

/-- Sum of all entries of a matrix. -/
def matSum (m : Mat) : ℚ := lsum (m.map lsum)

/-- np.mean over a (H, W) channel slice: sum of entries divided by H*W.
    (The code only ever applies it to nonempty rectangular slices.) -/
def matMean (m : Mat) : ℚ :=
  matSum m / ((m.length : ℚ) * ((m.headD []).length : ℚ))

/-- Elementwise sum of two equally-shaped vectors (numpy broadcasting is
    never exercised: the loop adds (H, W) arrays of identical shape). -/
def vecAdd : List ℚ → List ℚ → List ℚ
  | a :: as, b :: bs => (a + b) :: vecAdd as bs
  | _, _ => []

/-- Elementwise sum of two equally-shaped matrices (`cam += ...`). -/
def matAdd : Mat → Mat → Mat
  | r :: rs, s :: ss => vecAdd r s :: matAdd rs ss
  | _, _ => []

/-- Scalar multiple of a matrix (`w * target[i, :, :]`). -/
def matScale (w : ℚ) (m : Mat) : Mat :=
  m.map (fun row => row.map (fun v => w * v))

/-- np.maximum(cam, 0): elementwise rectification. -/
def matMax0 (m : Mat) : Mat :=
  m.map (fun row => row.map (fun v => max v 0))

/-- np.ones(shape, dtype=float32): an h × w matrix of ones. -/
def onesMat (h w : ℕ) : Mat :=
  List.replicate h (List.replicate w (1 : ℚ))

/-- np.min over the whole matrix (the code never takes it of an empty map). -/
def matMin (m : Mat) : ℚ :=
  match lflat m with
  | [] => 0
  | a :: t => t.foldl min a

/-- np.max over the whole matrix. -/
def matMax (m : Mat) : ℚ :=
  match lflat m with
  | [] => 0
  | a :: t => t.foldl max a

/-- Entry (r, c) of a matrix, with numpy-unreachable out-of-range default 0. -/
def mget (m : Mat) (r c : ℕ) : ℚ := (m.getD r []).getD c 0

/-- Entry (r, c) of a matrix of possibly-NaN values. -/
def mgetO (m : List (List (Option ℚ))) (r c : ℕ) : Option ℚ :=
  (m.getD r []).getD c none

/-- Entry (r, c) of an 8-bit image with possibly-undefined pixels. -/
def pget (m : List (List (Option ℕ))) (r c : ℕ) : Option ℕ :=
  (m.getD r []).getD c none

/-- Elementwise negation (`guided_gradients = -guided_gradients`). -/
def neg3 (t : Ten3) : Ten3 :=
  t.map (fun m => m.map (fun row => row.map (fun v => -v)))

/-- shape[1] of a (C, H, W) tensor, and input_image.shape[2] of the modelled
    (1, C, H, W) input: number of rows of the first channel. -/
def ten3H (t : Ten3) : ℕ := (t.headD []).length

/-- shape[2] of a (C, H, W) tensor, and input_image.shape[3] of the modelled
    (1, C, H, W) input: number of columns of the first row. -/
def ten3W (t : Ten3) : ℕ := ((t.headD []).headD []).length

/-- A matrix is rectangular with h rows and w columns. -/
def isShape {α : Type} (m : List (List α)) (h w : ℕ) : Prop :=
  m.length = h ∧ ∀ row ∈ m, row.length = w

instance {α : Type} (m : List (List α)) (h w : ℕ) : Decidable (isShape m h w) := by
  unfold isShape; infer_instance

/-- x.view(x.size(0), -1) on the single batch element: ravel to a feature
    vector. -/
def flatten3 (t : Ten3) : List ℚ := lflat (t.map lflat)

/-- CamExtractor.forward_pass_on_convolutions, inner loop:
    `for module_pos, module in enumerate(children): x = module(x);
     if int(module_pos) == self.target_layer: register hook; conv_output = x`.
    Walks the remaining modules from position pos, threading the running
    activation and the captured output. -/
def fpocAux (target_layer : ℤ) :
    List (Ten3 → Ten3) → ℕ → Option Ten3 → Ten3 → Option Ten3 × Ten3
  | [], _, conv, x => (conv, x)
  | m :: rest, pos, conv, x =>
      let x1 := m x
      fpocAux target_layer rest (pos + 1)
        (if (pos : ℤ) = target_layer then some x1 else conv) x1

/-- CamExtractor.forward_pass_on_convolutions: returns
    (captured activation or none, final body output). -/
def forward_pass_on_convolutions (model : List (Ten3 → Ten3))
    (target_layer : ℤ) (x : Ten3) : Option Ten3 × Ten3 :=
  fpocAux target_layer model 0 none x

/-- CamExtractor.forward_pass: body traversal, flatten, then the head; the
    head receives the target label exactly when feed_target is set. -/
def forward_pass (model : List (Ten3 → Ten3)) (target_layer : ℤ)
    (head : List ℚ → Option ℤ → List ℚ) (feed_target : Bool)
    (x : Ten3) (target : ℤ) : Option Ten3 × List ℚ :=
  let r := forward_pass_on_convolutions model target_layer x
  (r.1, head (flatten3 r.2) (if feed_target then some target else none))

/-- The one-hot vector of width n with a 1 at position j. -/
def oneHotVec (n j : ℕ) : List ℚ :=
  (List.range n).map (fun i => if i = j then 1 else 0)

/-- torch IndexError message raised by an out-of-bounds tensor assignment. -/
def indexErrMsg : String :=
  "IndexError: index out of bounds for dimension 0"

/-- AttributeError message raised by dereferencing .data of a None field. -/
def attrErrMsg : String :=
  "AttributeError: NoneType object has no attribute data"

/-- The explicit error message the spec requires for an unmatched target
    layer (the code never produces it). -/
def noActivationMsg : String :=
  "no activation captured at target layer"

/-- `one_hot_output = torch.FloatTensor(1, n).zero_();
     one_hot_output[0][target_class] = 1`.
    torch indexing accepts -n ≤ target_class < n, wrapping negative indices
    from the end, and raises IndexError otherwise. -/
def torchOneHot (n : ℕ) (target_class : ℤ) : Except String (List ℚ) :=
  if 0 ≤ target_class ∧ target_class < (n : ℤ) then
    Except.ok (oneHotVec n target_class.toNat)
  else if -(n : ℤ) ≤ target_class ∧ target_class < 0 then
    Except.ok (oneHotVec n ((n : ℤ) + target_class).toNat)
  else
    Except.error indexErrMsg

/-- `weights = np.mean(guided_gradients, axis=(1, 2))`: one spatial mean per
    channel of the (possibly negated) gradient tensor. -/
def computeWeights (g : Ten3) : List ℚ := g.map matMean

/-- The accumulation loop
    `for i, w in enumerate(weights): cam += w * target[i, :, :]`:
    weights (= one per gradient channel) and the activation channels are
    walked in lockstep — the hooked gradient has the activation's shape, so
    the i-th weight is paired with the i-th activation channel. -/
def camAccum : List ℚ → Ten3 → Mat → Mat
  | w :: ws, t :: ts, cam => camAccum ws ts (matAdd cam (matScale w t))
  | _, _, cam => cam

/-- Lines 129-135: the rectified pre-normalization accumulator
    `cam = np.ones(target.shape[1:]); for ...: cam += w * target[i];
     cam = np.maximum(cam, 0)`. -/
def camPreNorm (guided target : Ten3) : Mat :=
  matMax0 (camAccum (computeWeights guided) target
    (onesMat (ten3H target) (ten3W target)))

/-- IEEE division as numpy performs it elementwise: a zero divisor produces
    a non-finite value (NaN here, since the numerator is then also zero),
    modelled as none. -/
def qdivNp (a b : ℚ) : Option ℚ :=
  if b = 0 then none else some (a / b)

/-- Line 136: `cam = (cam - np.min(cam)) / (np.max(cam) - np.min(cam))`. -/
def normalizeCam (cam : Mat) : List (List (Option ℚ)) :=
  cam.map (fun row => row.map (fun v =>
    qdivNp (v - matMin cam) (matMax cam - matMin cam)))

/-- np.uint8 of a nonnegative float: truncate, then wrap modulo 256.
    (Applied to a NaN the cast is undefined: the caller keeps none.) -/
def npUint8 (q : ℚ) : ℕ := (⌊q⌋).toNat % 256

/-- Line 137: `cam = np.uint8(cam * 255)`. -/
def quantizeMat (m : List (List (Option ℚ))) : List (List (Option ℕ)) :=
  m.map (fun row => row.map (fun e => e.map (fun q => npUint8 (q * 255))))

/-- The input rows (resp. columns) that the box filter averages for output
    position r when resampling an inN-pixel axis to outN pixels: the range
    from r*inN/outN to ((r+1)*inN - 1)/outN, never empty. -/
def boxIdxs (outN inN r : ℕ) : List ℕ :=
  let lo := r * inN / outN
  let hi := max lo (((r + 1) * inN - 1) / outN)
  (List.range (hi + 1 - lo)).map (fun k => k + lo)

/-- Sum of a list of possibly-undefined pixels; any undefined pixel makes
    the sum undefined. -/
def optSum (l : List (Option ℕ)) : Option ℕ :=
  l.foldr (fun a b =>
    match a, b with
    | some x, some y => some (x + y)
    | _, _ => none) (some 0)

/-- Integer average of a box of pixels. -/
def optAvg (l : List (Option ℕ)) : Option ℕ :=
  (optSum l).map (fun s => s / l.length)

/-- PIL Image.resize(size, ANTIALIAS) on an 8-bit grayscale image, modelled
    as an antialiasing box average: size is a (width, height) pair as in
    PIL, so the result has size.2 rows of size.1 pixels each. -/
def pilResize (img : List (List (Option ℕ))) (size : ℕ × ℕ) :
    List (List (Option ℕ)) :=
  let inH := img.length
  let inW := (img.headD []).length
  (List.range size.2).map (fun r =>
    (List.range size.1).map (fun c =>
      optAvg (lflat ((boxIdxs size.2 inH r).map (fun i =>
        (boxIdxs size.1 inW c).map (fun j => pget img i j))))))

/-- Final `/ 255` rescale of the resized 8-bit map back to floats. -/
def rescale255 (m : List (List (Option ℕ))) : List (List (Option ℚ)) :=
  m.map (fun row => row.map (fun e => e.map (fun v : ℕ => (v : ℚ) / 255)))

/-- Lines 136-139: normalization, 8-bit quantization, PIL resize to
    (input_image.shape[2], input_image.shape[3]) given as the PIL size
    argument, and the final rescale to [0, 1] floats. -/
def camFinal (cam : Mat) (size : ℕ × ℕ) : List (List (Option ℚ)) :=
  rescale255 (pilResize (quantizeMat (normalizeCam cam)) size)

/-- GradCam.__init__ head-separation and label-feeding policy:
    `if feed_target is None: feed_target = (separate_head is not None)`;
    `if separate_head is None: separate_head = list(model.children())[-1];
     model = torch.nn.Sequential(*list(model.children())[:-1])`.
    Returns (body children, head, feed_target); the head is none only in
    the unreachable case of a childless model and no explicit head. -/
def gradcam_init {α : Type} (children : List α) (separate_head : Option α)
    (feed_target : Option Bool) : List α × Option α × Bool :=
  let ft := match feed_target with
    | none => separate_head.isSome
    | some b => b
  match separate_head with
  | some h => (children, some h, ft)
  | none => (children.dropLast, children.getLast?, ft)

/-- GradCam.generate_cam.  Arguments: the body modules, the target layer,
    the head, the feed_target flag, the autodiff oracle, the extractor's
    current gradients field (None on a fresh extractor), the input image
    (its single batch element), the target class and the counterfactual
    flag.  Returns the result (or the raised exception) together with the
    extractor's gradients field after the call; `separate_head.zero_grad()`
    only clears parameter gradient buffers, which nothing here observes. -/
def generate_cam (model : List (Ten3 → Ten3)) (target_layer : ℤ)
    (head : List ℚ → Option ℤ → List ℚ) (feed_target : Bool)
    (backward : List ℚ → Ten3) (grads0 : Option Ten3)
    (input : Ten3) (target_class : ℤ) (counterfactual : Bool) :
    Except String (List (List (Option ℚ))) × Option Ten3 :=
  match torchOneHot
      (forward_pass model target_layer head feed_target input target_class).2.length
      target_class with
  | Except.error e => (Except.error e, grads0)
  | Except.ok one_hot =>
    match (forward_pass model target_layer head feed_target input target_class).1 with
    | none =>
        -- the hook was never registered: the gradients field keeps its old
        -- value; reading `.data` of the absent gradient (line 123) or of
        -- the absent conv_output (line 127) raises the same AttributeError
        (Except.error attrErrMsg, grads0)
    | some act =>
        let g := backward one_hot
        let guided := if counterfactual then neg3 g else g
        (Except.ok (camFinal (camPreNorm guided act) (ten3H input, ten3W input)),
         some g)

/-- A finite value inside the closed unit interval. -/
def inUnit (e : Option ℚ) : Prop := ∃ q, e = some q ∧ 0 ≤ q ∧ q ≤ 1

/-- A defined 8-bit pixel value. -/
def goodPix (e : Option ℕ) : Prop := ∃ u, e = some u ∧ u ≤ 255

instance (e : Option ℕ) : Decidable (goodPix e) := by
  unfold goodPix
  rcases e with _ | u
  · exact Decidable.isFalse (by simp)
  · rcases Nat.decLe u 255 with h | h
    · exact Decidable.isFalse (by simpa using h)
    · exact Decidable.isTrue ⟨u, rfl, h⟩

/-! ### Helper lemmas: flattening, minima and maxima -/

theorem lflat_cons {α : Type} (a : List α) (t : List (List α)) :
    lflat (a :: t) = a ++ lflat t := rfl

theorem mem_lflat {α : Type} {m : List (List α)} {row : List α} {x : α}
    (hr : row ∈ m) (hx : x ∈ row) : x ∈ lflat m := by
  induction m with
  | nil => cases hr
  | cons a t ih =>
      rw [lflat_cons]
      rcases List.mem_cons.1 hr with h | h
      · exact List.mem_append_left _ (h ▸ hx)
      · exact List.mem_append_right _ (ih h)

theorem forall_mem_lflat {α : Type} {P : α → Prop} :
    ∀ (m : List (List α)), (∀ row ∈ m, ∀ x ∈ row, P x) →
      ∀ x ∈ lflat m, P x := by
  intro m
  induction m with
  | nil => intro _ x hx; cases hx
  | cons a t ih =>
      intro h x hx
      rw [lflat_cons] at hx
      rcases List.mem_append.1 hx with h1 | h1
      · exact h a (List.mem_cons_self a t) x h1
      · exact ih (fun row hr y hy => h row (List.mem_cons_of_mem a hr) y hy) x h1

theorem foldl_min_le_init (l : List ℚ) (a : ℚ) : List.foldl min a l ≤ a := by
  induction l generalizing a with
  | nil => exact le_refl a
  | cons x t ih =>
      calc List.foldl min (min a x) t ≤ min a x := ih (min a x)
        _ ≤ a := min_le_left a x

theorem foldl_min_le_mem {l : List ℚ} {b : ℚ} (a : ℚ) (hb : b ∈ l) :
    List.foldl min a l ≤ b := by
  induction l generalizing a with
  | nil => cases hb
  | cons x t ih =>
      rcases List.mem_cons.1 hb with h | h
      · subst h
        calc List.foldl min (min a b) t ≤ min a b := foldl_min_le_init t _
          _ ≤ b := min_le_right a b
      · exact ih _ h

theorem init_le_foldl_max (l : List ℚ) (a : ℚ) : a ≤ List.foldl max a l := by
  induction l generalizing a with
  | nil => exact le_refl a
  | cons x t ih =>
      calc a ≤ max a x := le_max_left a x
        _ ≤ List.foldl max (max a x) t := ih (max a x)

theorem mem_le_foldl_max {l : List ℚ} {b : ℚ} (a : ℚ) (hb : b ∈ l) :
    b ≤ List.foldl max a l := by
  induction l generalizing a with
  | nil => cases hb
  | cons x t ih =>
      rcases List.mem_cons.1 hb with h | h
      · subst h
        calc b ≤ max a b := le_max_right a b
          _ ≤ List.foldl max (max a b) t := init_le_foldl_max t _
      · exact ih _ h

theorem matMin_le_mem {m : Mat} {v : ℚ} (hv : v ∈ lflat m) : matMin m ≤ v := by
  unfold matMin
  rcases hf : lflat m with _ | ⟨a, t⟩
  · rw [hf] at hv; cases hv
  · rw [hf] at hv
    rcases List.mem_cons.1 hv with h | h
    · exact h ▸ foldl_min_le_init t a
    · exact foldl_min_le_mem a h

theorem mem_le_matMax {m : Mat} {v : ℚ} (hv : v ∈ lflat m) : v ≤ matMax m := by
  unfold matMax
  rcases hf : lflat m with _ | ⟨a, t⟩
  · rw [hf] at hv; cases hv
  · rw [hf] at hv
    rcases List.mem_cons.1 hv with h | h
    · exact h ▸ init_le_foldl_max t a
    · exact mem_le_foldl_max a h

theorem mget_mem {m : Mat} {h w r c : ℕ} (hs : isShape m h w)
    (hr : r < h) (hc : c < w) : mget m r c ∈ lflat m := by
  obtain ⟨hlen, hrow⟩ := hs
  have hr' : r < m.length := by omega
  have hmem : m.getD r [] ∈ m := by
    rw [List.getD_eq_getElem m [] hr']
    exact List.getElem_mem hr'
  have hc' : c < (m.getD r []).length := by
    rw [hrow _ hmem]; exact hc
  unfold mget
  refine mem_lflat hmem ?_
  rw [List.getD_eq_getElem _ 0 hc']
  exact List.getElem_mem hc'

theorem matMin_le_matMax {m : Mat} {h w : ℕ} (hs : isShape m h w)
    (hh : 1 ≤ h) (hw : 1 ≤ w) : matMin m ≤ matMax m := by
  have hv := mget_mem hs hh hw
  exact le_trans (matMin_le_mem hv) (mem_le_matMax hv)

/-! ### Helper lemmas: shapes -/

theorem map_map_isShape {α β : Type} (f : α → β) {m : List (List α)}
    {h w : ℕ} (hs : isShape m h w) :
    isShape (m.map (fun row => row.map f)) h w := by
  obtain ⟨hlen, hrow⟩ := hs
  refine ⟨by simpa using hlen, ?_⟩
  intro row hr
  rcases List.mem_map.1 hr with ⟨row0, hr0, rfl⟩
  simpa using hrow row0 hr0

theorem onesMat_isShape (h w : ℕ) : isShape (onesMat h w) h w := by
  refine ⟨by simp [onesMat], ?_⟩
  intro row hr
  rw [List.eq_of_mem_replicate hr]
  simp

theorem matScale_isShape {m : Mat} {h w : ℕ} (s : ℚ) (hs : isShape m h w) :
    isShape (matScale s m) h w := map_map_isShape _ hs

theorem matMax0_isShape {m : Mat} {h w : ℕ} (hs : isShape m h w) :
    isShape (matMax0 m) h w := map_map_isShape _ hs

theorem vecAdd_length : ∀ {a b : List ℚ}, a.length = b.length →
    (vecAdd a b).length = a.length
  | [], [], _ => rfl
  | [], _ :: _, h => by cases h
  | _ :: _, [], h => by cases h
  | x :: xs, y :: ys, h => by
      simp only [vecAdd, List.length_cons]
      exact congrArg Nat.succ (vecAdd_length (by simpa using h))

theorem matAdd_isShape : ∀ {a b : Mat} {h w : ℕ},
    isShape a h w → isShape b h w → isShape (matAdd a b) h w := by
  intro a
  induction a with
  | nil =>
      intro b h w ha _
      obtain ⟨hlen, _⟩ := ha
      subst hlen
      exact ⟨rfl, by intro row hr; cases hr⟩
  | cons x xs ih =>
      intro b h w ha hb
      obtain ⟨halen, harow⟩ := ha
      obtain ⟨hblen, hbrow⟩ := hb
      rcases b with _ | ⟨y, ys⟩
      · exfalso; rw [← halen] at hblen; cases hblen
      · have hxw : x.length = w := harow x (List.mem_cons_self _ _)
        have hyw : y.length = w := hbrow y (List.mem_cons_self _ _)
        have hxy : x.length = y.length := by rw [hxw, hyw]
        have htail : isShape (matAdd xs ys) (h - 1) w := by
          refine ih ⟨?_, ?_⟩ ⟨?_, ?_⟩
          · simp only [List.length_cons] at halen; omega
          · intro row hr; exact harow row (List.mem_cons_of_mem _ hr)
          · simp only [List.length_cons] at hblen; omega
          · intro row hr; exact hbrow row (List.mem_cons_of_mem _ hr)
        obtain ⟨htlen, htrow⟩ := htail
        refine ⟨?_, ?_⟩
        · simp only [matAdd, List.length_cons, htlen]
          simp only [List.length_cons] at halen; omega
        · intro row hr
          simp only [matAdd] at hr
          rcases List.mem_cons.1 hr with h1 | h1
          · rw [h1, vecAdd_length hxy, hxw]
          · exact htrow row h1

theorem camAccum_isShape : ∀ (ws : List ℚ) (ts : Ten3) {cam : Mat} {h w : ℕ},
    isShape cam h w → (∀ m ∈ ts, isShape m h w) →
    isShape (camAccum ws ts cam) h w := by
  intro ws
  induction ws with
  | nil => intro ts cam h w hc _; cases ts <;> exact hc
  | cons x xs ih =>
      intro ts cam h w hc hts
      rcases ts with _ | ⟨t, ts1⟩
      · exact hc
      · simp only [camAccum]
        refine ih ts1 (matAdd_isShape hc ?_) ?_
        · exact matScale_isShape x (hts t (List.mem_cons_self _ _))
        · intro m hm; exact hts m (List.mem_cons_of_mem _ hm)

theorem ten3H_eq {ts : Ten3} {h w : ℕ} (hne : ts ≠ [])
    (hsh : ∀ m ∈ ts, isShape m h w) : ten3H ts = h := by
  rcases ts with _ | ⟨m0, rest⟩
  · exact absurd rfl hne
  · exact (hsh m0 (List.mem_cons_self _ _)).1

theorem ten3W_eq {ts : Ten3} {h w : ℕ} (hne : ts ≠ [])
    (hsh : ∀ m ∈ ts, isShape m h w) (hh : 1 ≤ h) : ten3W ts = w := by
  rcases ts with _ | ⟨m0, rest⟩
  · exact absurd rfl hne
  · obtain ⟨hlen, hrow⟩ := hsh m0 (List.mem_cons_self _ _)
    have h0 : 0 < m0.length := by omega
    rcases m0 with _ | ⟨row0, rows⟩
    · simp at h0
    · exact hrow row0 (List.mem_cons_self _ _)

theorem camPreNorm_isShape {guided ts : Ten3} {h w : ℕ} (hne : ts ≠ [])
    (hsh : ∀ m ∈ ts, isShape m h w) (hh : 1 ≤ h) :
    isShape (camPreNorm guided ts) h w := by
  unfold camPreNorm
  rw [ten3H_eq hne hsh, ten3W_eq hne hsh hh]
  exact matMax0_isShape (camAccum_isShape _ _ (onesMat_isShape h w) hsh)

/-! ### Helper lemmas: matrix entries -/

theorem getD_map_zero {f : ℚ → ℚ} (hf : f 0 = 0) :
    ∀ (l : List ℚ) (c : ℕ), (l.map f).getD c 0 = f (l.getD c 0)
  | [], c => by simp [hf]
  | x :: xs, 0 => rfl
  | x :: xs, c + 1 => by
      simpa using getD_map_zero hf xs c

theorem mget_map_zero {f : ℚ → ℚ} (hf : f 0 = 0) :
    ∀ (m : Mat) (r c : ℕ),
      mget (m.map (fun row => row.map f)) r c = f (mget m r c)
  | [], r, c => by simp [mget, hf]
  | x :: xs, 0, c => by simpa [mget] using getD_map_zero hf x c
  | x :: xs, r + 1, c => by simpa [mget] using mget_map_zero hf xs r c

theorem mget_matScale (s : ℚ) (m : Mat) (r c : ℕ) :
    mget (matScale s m) r c = s * mget m r c :=
  mget_map_zero (by ring) m r c

theorem mget_matMax0 (m : Mat) (r c : ℕ) :
    mget (matMax0 m) r c = max (mget m r c) 0 :=
  mget_map_zero (by simp) m r c

theorem mget_onesMat {h w r c : ℕ} (hr : r < h) (hc : c < w) :
    mget (onesMat h w) r c = 1 := by
  unfold mget onesMat
  rw [List.getD_eq_getElem _ [] (by simpa using hr)]
  rw [List.getElem_replicate]
  rw [List.getD_eq_getElem _ 0 (by simpa using hc)]
  rw [List.getElem_replicate]

theorem getD_vecAdd : ∀ (a b : List ℚ) (c : ℕ), a.length = b.length →
    (vecAdd a b).getD c 0 = a.getD c 0 + b.getD c 0
  | [], [], c, _ => by simp [vecAdd]
  | [], _ :: _, _, h => by cases h
  | _ :: _, [], _, h => by cases h
  | x :: xs, y :: ys, 0, _ => rfl
  | x :: xs, y :: ys, c + 1, h => by
      simpa [vecAdd] using getD_vecAdd xs ys c (by simpa using h)

theorem mget_matAdd : ∀ {a b : Mat} {h w : ℕ} (r c : ℕ),
    isShape a h w → isShape b h w →
    mget (matAdd a b) r c = mget a r c + mget b r c := by
  intro a
  induction a with
  | nil =>
      intro b h w r c ha hb
      obtain ⟨halen, _⟩ := ha
      obtain ⟨hblen, _⟩ := hb
      rcases b with _ | ⟨y, ys⟩
      · simp [mget, matAdd]
      · exfalso; rw [← halen] at hblen; cases hblen
  | cons x xs ih =>
      intro b h w r c ha hb
      obtain ⟨halen, harow⟩ := ha
      obtain ⟨hblen, hbrow⟩ := hb
      rcases b with _ | ⟨y, ys⟩
      · exfalso; rw [← halen] at hblen; cases hblen
      · have hxy : x.length = y.length := by
          rw [harow x (List.mem_cons_self _ _), hbrow y (List.mem_cons_self _ _)]
        rcases r with _ | r1
        · simpa [mget, matAdd] using getD_vecAdd x y c hxy
        · simp only [mget, matAdd, List.getD_cons_succ]
          have := ih (h := h - 1) (w := w) r1 c
            ⟨by simp only [List.length_cons] at halen; omega,
             fun row hr => harow row (List.mem_cons_of_mem _ hr)⟩
            ⟨by simp only [List.length_cons] at hblen hblen; omega,
             fun row hr => hbrow row (List.mem_cons_of_mem _ hr)⟩
          simpa [mget] using this

theorem mget_camAccum : ∀ (ws : List ℚ) (ts : Ten3) (cam : Mat) {h w : ℕ}
    (r c : ℕ), isShape cam h w → (∀ m ∈ ts, isShape m h w) →
    mget (camAccum ws ts cam) r c
      = mget cam r c
        + (List.zipWith (fun wt t => wt * mget t r c) ws ts).sum := by
  intro ws
  induction ws with
  | nil => intro ts cam h w r c hc hts; cases ts <;> simp [camAccum]
  | cons x xs ih =>
      intro ts cam h w r c hc hts
      rcases ts with _ | ⟨t, ts1⟩
      · simp [camAccum]
      · have htshape := hts t (List.mem_cons_self _ _)
        have hstep : isShape (matAdd cam (matScale x t)) h w :=
          matAdd_isShape hc (matScale_isShape x htshape)
        simp only [camAccum]
        rw [ih ts1 _ r c hstep (fun m hm => hts m (List.mem_cons_of_mem _ hm))]
        rw [mget_matAdd r c hc (matScale_isShape x htshape), mget_matScale]
        simp only [List.zipWith_cons_cons, List.sum_cons]
        ring

/-! ### Helper lemmas: normalization, quantization -/

theorem getD_map_none {α β : Type} (f : Option α → Option β) (hf : f none = none) :
    ∀ (l : List (Option α)) (c : ℕ), (l.map f).getD c none = f (l.getD c none)
  | [], c => by simp [hf]
  | x :: xs, 0 => rfl
  | x :: xs, c + 1 => by simpa using getD_map_none f hf xs c

theorem getD2_map_none {α β : Type} (f : Option α → Option β)
    (hf : f none = none) :
    ∀ (m : List (List (Option α))) (r c : ℕ),
      ((m.map (fun row => row.map f)).getD r []).getD c none
        = f ((m.getD r []).getD c none)
  | [], r, c => by simp [hf]
  | x :: xs, 0, c => by simpa using getD_map_none f hf x c
  | x :: xs, r + 1, c => by simpa using getD2_map_none f hf xs r c

theorem mgetO_normalizeCam {cam : Mat} {h w r c : ℕ} (hs : isShape cam h w)
    (hr : r < h) (hc : c < w) :
    mgetO (normalizeCam cam) r c
      = qdivNp (mget cam r c - matMin cam) (matMax cam - matMin cam) := by
  obtain ⟨hlen, hrow⟩ := hs
  have hr' : r < cam.length := by omega
  have hmem : cam.getD r [] ∈ cam := by
    rw [List.getD_eq_getElem cam [] hr']
    exact List.getElem_mem hr'
  have hc' : c < (cam.getD r []).length := by rw [hrow _ hmem]; exact hc
  have hc2 : c < (cam[r]).length := by
    rw [← List.getD_eq_getElem cam [] hr']; exact hc'
  unfold mgetO normalizeCam mget
  rw [List.getD_eq_getElem (cam.map _) [] (by simpa using hr')]
  rw [List.getElem_map]
  rw [List.getD_eq_getElem ((cam[r]).map _) none (by simpa using hc2)]
  rw [List.getElem_map]
  rw [List.getD_eq_getElem cam [] hr', List.getD_eq_getElem _ 0 hc2]

theorem normalizeCam_inUnit {cam : Mat} {h w r c : ℕ} (hs : isShape cam h w)
    (hh : 1 ≤ h) (hw : 1 ≤ w) (hr : r < h) (hc : c < w)
    (hdeg : matMin cam ≠ matMax cam) :
    ∃ q, mgetO (normalizeCam cam) r c = some q ∧ 0 ≤ q ∧ q ≤ 1 := by
  have hlt : matMin cam < matMax cam :=
    lt_of_le_of_ne (matMin_le_matMax hs hh hw) hdeg
  have hvmem := mget_mem hs hr hc
  have hlo : matMin cam ≤ mget cam r c := matMin_le_mem hvmem
  have hhi : mget cam r c ≤ matMax cam := mem_le_matMax hvmem
  have hden : matMax cam - matMin cam ≠ 0 := by
    intro h0; exact absurd (by linarith : matMax cam = matMin cam) (Ne.symm hdeg)
  rw [mgetO_normalizeCam hs hr hc]
  refine ⟨(mget cam r c - matMin cam) / (matMax cam - matMin cam), ?_, ?_, ?_⟩
  · simp [qdivNp, hden]
  · apply div_nonneg <;> linarith
  · rw [div_le_one (by linarith)]; linarith

theorem pget_quantizeMat (m : List (List (Option ℚ))) (r c : ℕ) :
    pget (quantizeMat m) r c
      = Option.map (fun q => npUint8 (q * 255)) (mgetO m r c) :=
  getD2_map_none _ rfl m r c

theorem npUint8_le (q : ℚ) : npUint8 q ≤ 255 := by
  unfold npUint8
  omega

theorem quantizeMat_goodPix {m : List (List (Option ℚ))} {r c : ℕ}
    (hq : ∃ q, mgetO m r c = some q ∧ 0 ≤ q ∧ q ≤ 1) :
    goodPix (pget (quantizeMat m) r c) := by
  obtain ⟨q, hq1, _, _⟩ := hq
  rw [pget_quantizeMat, hq1]
  exact ⟨npUint8 (q * 255), rfl, npUint8_le _⟩

/-! ### Helper lemmas: the box-average resize -/

theorem boxIdxs_ne_nil (outN inN r : ℕ) : boxIdxs outN inN r ≠ [] := by
  unfold boxIdxs
  have hle : r * inN / outN ≤ max (r * inN / outN) (((r + 1) * inN - 1) / outN) :=
    le_max_left _ _
  simp only [ne_eq, List.map_eq_nil_iff, List.range_eq_nil]
  omega

theorem boxIdxs_lt {outN inN r : ℕ} (hr : r < outN) (hin : 1 ≤ inN) :
    ∀ i ∈ boxIdxs outN inN r, i < inN := by
  intro i hi
  have houtN : 0 < outN := by omega
  have hlo : r * inN / outN < inN := by
    rw [Nat.div_lt_iff_lt_mul houtN]
    calc r * inN < outN * inN := by
          exact Nat.mul_lt_mul_of_lt_of_le hr (le_refl inN) (by omega)
      _ = inN * outN := Nat.mul_comm _ _
  have hhi : ((r + 1) * inN - 1) / outN < inN := by
    rw [Nat.div_lt_iff_lt_mul houtN]
    have h1 : (r + 1) * inN ≤ outN * inN :=
      Nat.mul_le_mul_right inN (by omega)
    have h2 : 1 ≤ (r + 1) * inN := by
      calc 1 = 1 * 1 := rfl
        _ ≤ (r + 1) * inN := Nat.mul_le_mul (by omega) hin
    have h3 : outN * inN = inN * outN := Nat.mul_comm _ _
    omega
  unfold boxIdxs at hi
  simp only [List.mem_map, List.mem_range] at hi
  obtain ⟨k, hk, rfl⟩ := hi
  omega

theorem optSum_bound : ∀ (l : List (Option ℕ)), (∀ e ∈ l, goodPix e) →
    ∃ s, optSum l = some s ∧ s ≤ 255 * l.length := by
  intro l
  induction l with
  | nil => intro _; exact ⟨0, rfl, by simp⟩
  | cons x xs ih =>
      intro h
      obtain ⟨u, hu, hu255⟩ := h x (List.mem_cons_self _ _)
      obtain ⟨s, hs, hsle⟩ := ih (fun e he => h e (List.mem_cons_of_mem _ he))
      refine ⟨u + s, ?_, ?_⟩
      · simp only [optSum] at hs ⊢
        rw [hu, List.foldr_cons, hs]
      · simp only [List.length_cons]
        calc u + s ≤ 255 + 255 * xs.length := by omega
          _ = 255 * (xs.length + 1) := by ring

theorem optAvg_goodPix {l : List (Option ℕ)} (hne : l ≠ [])
    (h : ∀ e ∈ l, goodPix e) : goodPix (optAvg l) := by
  obtain ⟨s, hs, hsle⟩ := optSum_bound l h
  have hlen : 0 < l.length := List.length_pos.2 hne
  refine ⟨s / l.length, by simp [optAvg, hs], ?_⟩
  calc s / l.length ≤ 255 * l.length / l.length :=
        Nat.div_le_div_right hsle
    _ = 255 := Nat.mul_div_cancel 255 hlen

theorem getD_range_map {α : Type} (f : ℕ → α) (d : α) {n i : ℕ} (h : i < n) :
    ((List.range n).map f).getD i d = f i := by
  rw [List.getD_eq_getElem _ d (by simpa using h)]
  rw [List.getElem_map, List.getElem_range]

theorem pilResize_isShape (img : List (List (Option ℕ))) (size : ℕ × ℕ) :
    isShape (pilResize img size) size.2 size.1 := by
  refine ⟨by simp [pilResize], ?_⟩
  intro row hr
  unfold pilResize at hr
  simp only [List.mem_map, List.mem_range] at hr
  obtain ⟨r, _, rfl⟩ := hr
  simp

theorem pget_pilResize (img : List (List (Option ℕ))) (size : ℕ × ℕ)
    {r c : ℕ} (hr : r < size.2) (hc : c < size.1) :
    pget (pilResize img size) r c
      = optAvg (lflat ((boxIdxs size.2 img.length r).map (fun i =>
          (boxIdxs size.1 (img.headD []).length c).map (fun j =>
            pget img i j)))) := by
  unfold pget pilResize
  rw [getD_range_map _ [] hr]
  rw [getD_range_map _ none hc]
  rfl

theorem pilResize_goodPix {img : List (List (Option ℕ))} {ih iw : ℕ}
    (size : ℕ × ℕ) (hs : isShape img ih iw) (hih : 1 ≤ ih) (hiw : 1 ≤ iw)
    (hpix : ∀ r c, r < ih → c < iw → goodPix (pget img r c))
    {r c : ℕ} (hr : r < size.2) (hc : c < size.1) :
    goodPix (pget (pilResize img size) r c) := by
  obtain ⟨hlen, hrow⟩ := hs
  have hheadW : (img.headD []).length = iw := by
    rcases img with _ | ⟨row0, rest⟩
    · simp at hlen; omega
    · exact hrow row0 (List.mem_cons_self _ _)
  rw [pget_pilResize img size hr hc]
  set rows := boxIdxs size.2 img.length r with hrows
  set cols := boxIdxs size.1 (img.headD []).length c with hcols
  have hrowslt : ∀ i ∈ rows, i < ih := by
    rw [hrows, ← hlen]
    exact boxIdxs_lt hr (by omega)
  have hcolslt : ∀ j ∈ cols, j < iw := by
    rw [hcols, ← hheadW]
    exact boxIdxs_lt hc (by omega)
  refine optAvg_goodPix ?_ ?_
  · obtain ⟨i0, rest, hi0⟩ := List.exists_cons_of_ne_nil
      (boxIdxs_ne_nil size.2 img.length r)
    obtain ⟨j0, rest2, hj0⟩ := List.exists_cons_of_ne_nil
      (boxIdxs_ne_nil size.1 (img.headD []).length c)
    rw [← hrows] at hi0
    rw [← hcols] at hj0
    rw [hi0, hj0]
    simp [lflat_cons]
  · apply forall_mem_lflat
    intro row hrm x hx
    rcases List.mem_map.1 hrm with ⟨i, hi, rfl⟩
    rcases List.mem_map.1 hx with ⟨j, hj, rfl⟩
    exact hpix i j (hrowslt i hi) (hcolslt j hj)

/-! ### Helper lemmas: the post-normalization pipeline -/

theorem mgetO_rescale255 (m : List (List (Option ℕ))) (r c : ℕ) :
    mgetO (rescale255 m) r c
      = Option.map (fun v : ℕ => (v : ℚ) / 255) (pget m r c) := by
  have h := getD2_map_none
    (fun e : Option ℕ => e.map (fun v : ℕ => (v : ℚ) / 255)) rfl m r c
  simpa [mgetO, pget, rescale255, Option.map] using h

theorem camFinal_inUnit {cam : Mat} {h w : ℕ} (size : ℕ × ℕ)
    (hs : isShape cam h w) (hh : 1 ≤ h) (hw : 1 ≤ w)
    (hdeg : matMin cam ≠ matMax cam) :
    isShape (camFinal cam size) size.2 size.1
    ∧ ∀ r c, r < size.2 → c < size.1 →
        inUnit (mgetO (camFinal cam size) r c) := by
  have hnorm : isShape (normalizeCam cam) h w := map_map_isShape _ hs
  have hquant : isShape (quantizeMat (normalizeCam cam)) h w :=
    map_map_isShape _ hnorm
  have hquantPix : ∀ r c, r < h → c < w →
      goodPix (pget (quantizeMat (normalizeCam cam)) r c) := by
    intro r c hr hc
    exact quantizeMat_goodPix (normalizeCam_inUnit hs hh hw hr hc hdeg)
  have hresized : ∀ r c, r < size.2 → c < size.1 →
      goodPix (pget (pilResize (quantizeMat (normalizeCam cam)) size) r c) := by
    intro r c hr hc
    exact pilResize_goodPix size hquant hh hw hquantPix hr hc
  constructor
  · exact map_map_isShape _ (pilResize_isShape _ _)
  · intro r c hr hc
    obtain ⟨u, hu, hu255⟩ := hresized r c hr hc
    unfold camFinal
    rw [mgetO_rescale255, hu]
    refine ⟨(u : ℚ) / 255, rfl, ?_, ?_⟩
    · positivity
    · rw [div_le_one (by norm_num)]
      exact_mod_cast hu255

/-! ### Claim theorems -/

/-- C5: the per-channel importance weight computed by generate_cam
    (`weights = np.mean(guided_gradients, axis=(1, 2))`) is the spatial mean
    over height and width of the (possibly negated) gradient channel; and on
    the synthetic (2, 4, 4) gradient with channel 0 all 2.0 and channel 1
    all -1.0 the computed weights are exactly [2.0, -1.0]. -/
theorem weights_are_spatial_means :
    (∀ (g : Ten3) (i : ℕ), i < g.length →
      (computeWeights g).getD i 0 = matMean (g.getD i []))
    ∧ computeWeights
        [[[2, 2, 2, 2], [2, 2, 2, 2], [2, 2, 2, 2], [2, 2, 2, 2]],
         [[-1, -1, -1, -1], [-1, -1, -1, -1], [-1, -1, -1, -1],
          [-1, -1, -1, -1]]] = [2, -1] := by
  constructor
  · intro g i h
    unfold computeWeights
    rw [List.getD_eq_getElem _ 0 (by simpa using h), List.getElem_map,
      List.getD_eq_getElem _ [] h]
  · norm_num [computeWeights, matMean, matSum, lsum]

/-- C5 witness: the general statement applied to a concrete one-channel
    gradient tensor. -/
theorem weights_are_spatial_means_witness :
    0 < ([[[3]]] : Ten3).length
    ∧ (computeWeights [[[3]]]).getD 0 0 = matMean (([[[3]]] : Ten3).getD 0 []) :=
  ⟨by norm_num, weights_are_spatial_means.1 [[[3]]] 0 (by norm_num)⟩

/-- C6: the rectified pre-normalization accumulator equals, entrywise,
    max(0, 1 + sum over channels of weight[channel] * activation[channel]):
    it starts from the all-ones bias map (not zeros), accumulates each
    channel's weighted activation, and is clamped to nonnegative values. -/
theorem cam_accumulator_formula (guided ts : Ten3) (h w r c : ℕ)
    (hne : ts ≠ []) (hsh : ∀ m ∈ ts, isShape m h w) (hh : 1 ≤ h)
    (hr : r < h) (hc : c < w) :
    mget (camPreNorm guided ts) r c
      = max 0 (1 + (List.zipWith
          (fun wt t => wt * mget t r c) (computeWeights guided) ts).sum) := by
  unfold camPreNorm
  rw [ten3H_eq hne hsh, ten3W_eq hne hsh hh]
  rw [mget_matMax0]
  rw [mget_camAccum _ _ _ r c (onesMat_isShape h w) hsh]
  rw [mget_onesMat hr hc]
  exact max_comm _ 0

/-- C6 witness: the accumulator formula applied to a concrete one-channel
    activation with weight 4, at entry (0, 0). -/
theorem cam_accumulator_formula_witness :
    ([[[(1 : ℚ), 0], [0, 0]]] : Ten3) ≠ []
    ∧ mget (camPreNorm [[[4, 4], [4, 4]]] [[[1, 0], [0, 0]]]) 0 0
      = max 0 (1 + (List.zipWith (fun wt t => wt * mget t 0 0)
          (computeWeights [[[4, 4], [4, 4]]]) [[[1, 0], [0, 0]]]).sum) :=
  ⟨by simp,
   cam_accumulator_formula [[[4, 4], [4, 4]]] [[[1, 0], [0, 0]]] 2 2 0 0
     (by simp) (by decide) (by norm_num) (by norm_num) (by norm_num)⟩

/-- C8: when no explicit separate head is supplied, the last child of the
    model becomes the head and the remaining children, in their original
    order, become the body; the feed_target flag, when not specified,
    defaults to true exactly when an explicit separate head was supplied. -/
theorem head_separation_and_feed_target_default {α : Type}
    (children : List α) (hne : children ≠ []) (sh : α) :
    gradcam_init children none none
      = (children.dropLast, some (children.getLast hne), false)
    ∧ gradcam_init children (some sh) none = (children, some sh, true) := by
  constructor
  · unfold gradcam_init
    simp [List.getLast?_eq_getLast children hne]
  · rfl

/-- C8 witness: the construction policy on a three-child model. -/
theorem head_separation_witness :
    ([1, 2, 3] : List ℕ) ≠ []
    ∧ gradcam_init [1, 2, 3] none none = ([1, 2], some 3, false)
    ∧ gradcam_init [1, 2, 3] (some 9) none = ([1, 2, 3], some 9, true) := by
  refine ⟨by decide, ?_, ?_⟩
  · exact (head_separation_and_feed_target_default [1, 2, 3] (by decide) 9).1
  · exact (head_separation_and_feed_target_default [1, 2, 3] (by decide) 9).2

/-- C7: a target_class outside the valid torch index range of the head
    output (at least n, or below -n) makes generate_cam fail at the one-hot
    seed construction with the explicit index-out-of-range error, before any
    backward pass, leaving the extractor state unchanged. -/
theorem target_class_out_of_range_raises (model : List (Ten3 → Ten3))
    (target_layer : ℤ) (head : List ℚ → Option ℤ → List ℚ)
    (feed_target : Bool) (backward : List ℚ → Ten3) (grads0 : Option Ten3)
    (input : Ten3) (target_class : ℤ) (counterfactual : Bool)
    (hout : ((forward_pass model target_layer head feed_target input
          target_class).2.length : ℤ) ≤ target_class
      ∨ target_class < -((forward_pass model target_layer head feed_target
          input target_class).2.length : ℤ)) :
    generate_cam model target_layer head feed_target backward grads0 input
        target_class counterfactual
      = (Except.error indexErrMsg, grads0) := by
  have herr : torchOneHot (forward_pass model target_layer head feed_target
      input target_class).2.length target_class = Except.error indexErrMsg := by
    unfold torchOneHot
    rcases hout with h | h
    · rw [if_neg (by omega), if_neg (by omega)]
    · rw [if_neg (by omega), if_neg (by omega)]
  unfold generate_cam
  rw [herr]

/-- C7 witness: a two-argument-free concrete run with one output class and
    target_class 5. -/
theorem target_class_out_of_range_witness :
    generate_cam [] 0 (fun _ _ => [(2 : ℚ)]) false (fun _ => []) none [] 5
        false
      = (Except.error indexErrMsg, none) :=
  target_class_out_of_range_raises [] 0 (fun _ _ => [(2 : ℚ)]) false
    (fun _ => []) none [] 5 false
    (Or.inl (by norm_num [forward_pass, forward_pass_on_convolutions, fpocAux]))

/-- C9: generate_cam is deterministic: a second call with identical inputs,
    run on the extractor gradient state left behind by the first call,
    returns exactly the first call's result; no random state is involved at
    inference time. -/
theorem generate_cam_deterministic (model : List (Ten3 → Ten3))
    (target_layer : ℤ) (head : List ℚ → Option ℤ → List ℚ)
    (feed_target : Bool) (backward : List ℚ → Ten3) (grads0 : Option Ten3)
    (input : Ten3) (target_class : ℤ) :
    (generate_cam model target_layer head feed_target backward
        (generate_cam model target_layer head feed_target backward grads0
          input target_class false).2 input target_class false).1
      = (generate_cam model target_layer head feed_target backward grads0
          input target_class false).1 := by
  cases h1 : torchOneHot (forward_pass model target_layer head feed_target
      input target_class).2.length target_class with
  | error e => simp [generate_cam, h1]
  | ok oh =>
      cases h2 : (forward_pass model target_layer head feed_target input
          target_class).1 with
      | none => simp [generate_cam, h1, h2]
      | some act => simp [generate_cam, h1, h2]

/-- When the head is not fed the label (feed_target false), the forward pass
    does not depend on the target class. -/
theorem forward_pass_no_feed (model : List (Ten3 → Ten3)) (target_layer : ℤ)
    (head : List ℚ → Option ℤ → List ℚ) (input : Ten3) (a b : ℤ) :
    forward_pass model target_layer head false input a
      = forward_pass model target_layer head false input b := rfl

/-- C10: target_class -1 does not raise: the one-hot assignment wraps to the
    last class, and generate_cam returns (successfully) exactly the CAM of
    the wrapped class n-1. -/
theorem negative_target_class_wraps (model : List (Ten3 → Ten3))
    (target_layer : ℤ) (head : List ℚ → Option ℤ → List ℚ)
    (backward : List ℚ → Ten3) (grads0 : Option Ten3) (input : Ten3)
    (counterfactual : Bool) (n : ℕ) (act : Ten3)
    (hconv : (forward_pass model target_layer head false input (-1)).1
      = some act)
    (hn : (forward_pass model target_layer head false input (-1)).2.length
      = n)
    (hpos : 1 ≤ n) :
    generate_cam model target_layer head false backward grads0 input (-1)
        counterfactual
      = generate_cam model target_layer head false backward grads0 input
          ((n : ℤ) - 1) counterfactual
    ∧ ∃ M, (generate_cam model target_layer head false backward grads0 input
        (-1) counterfactual).1 = Except.ok M := by
  have hfp : forward_pass model target_layer head false input ((n : ℤ) - 1)
      = forward_pass model target_layer head false input (-1) :=
    forward_pass_no_feed model target_layer head input _ _
  have h1 : torchOneHot n (-1) = Except.ok (oneHotVec n (n - 1)) := by
    unfold torchOneHot
    rw [if_neg (by omega), if_pos ⟨by omega, by omega⟩]
    have : ((n : ℤ) + (-1)).toNat = n - 1 := by omega
    rw [this]
  have h2 : torchOneHot n ((n : ℤ) - 1) = Except.ok (oneHotVec n (n - 1)) := by
    unfold torchOneHot
    rw [if_pos ⟨by omega, by omega⟩]
    have : ((n : ℤ) - 1).toNat = n - 1 := by omega
    rw [this]
  constructor
  · unfold generate_cam
    rw [hfp, hn, h1, h2]
  · unfold generate_cam
    rw [hn, h1, hconv]
    exact ⟨_, rfl⟩

/-- C10 witness: a two-class head; class -1 behaves exactly as class 1. -/
theorem negative_target_class_wraps_witness :
    generate_cam [fun x => x] 0 (fun _ _ => [(7 : ℚ), 8]) false
        (fun _ => [[[1]]]) none [[[1]]] (-1) false
      = generate_cam [fun x => x] 0 (fun _ _ => [(7 : ℚ), 8]) false
          (fun _ => [[[1]]]) none [[[1]]] (((2 : ℕ) : ℤ) - 1) false
    ∧ ∃ M, (generate_cam [fun x => x] 0 (fun _ _ => [(7 : ℚ), 8]) false
        (fun _ => [[[1]]]) none [[[1]]] (-1) false).1 = Except.ok M :=
  negative_target_class_wraps [fun x => x] 0 (fun _ _ => [(7 : ℚ), 8])
    (fun _ => [[[1]]]) none [[[1]]] false 2 [[[1]]] rfl rfl (by norm_num)

/-- C1: on a non-square input of spatial size H = 2, W = 3 the returned map
    has 3 rows of 2 entries, i.e. shape (W, H) = (3, 2), not the claimed
    (input_H, input_W) = (2, 3): the code hands (shape[2], shape[3]) to the
    PIL resize, which reads the pair as (width, height). -/
theorem generate_cam_shape_transposed_on_nonsquare_input :
    Except.map (fun m => (m.length, m.map List.length))
      (generate_cam [fun x => x] 0 (fun fs _ => [lsum fs]) false
        (fun _ => [[[1, 1, 1], [1, 1, 1]]]) none
        [[[1, 2, 3], [4, 5, 6]]] 0 false).1
      = Except.ok (3, [2, 2, 2]) := by
  norm_num [generate_cam, forward_pass, forward_pass_on_convolutions, fpocAux,
    flatten3, lflat, torchOneHot, oneHotVec, camFinal, camPreNorm,
    computeWeights, matMean, matSum, lsum, camAccum, matAdd, vecAdd, matScale,
    matMax0, onesMat, normalizeCam, matMin, matMax, qdivNp, quantizeMat,
    npUint8, pilResize, boxIdxs, optAvg, optSum, pget, rescale255, ten3H,
    ten3W, List.range_succ, Function.comp, Except.map]

/-- C2: a run whose gradients are all zero leaves the rectified accumulator
    constant; the normalization then divides zero by zero and every entry of
    the value returned by generate_cam is the NaN marker (undefined), not a
    defined all-zero map. -/
theorem generate_cam_degenerate_map_is_nan :
    generate_cam [fun x => x] 0 (fun fs _ => [lsum fs]) false
        (fun _ => [[[0]]]) none [[[5]]] 0 false
      = (Except.ok [[(none : Option ℚ)]], some [[[0]]]) := by
  norm_num [generate_cam, forward_pass, forward_pass_on_convolutions, fpocAux,
    flatten3, lflat, torchOneHot, oneHotVec, camFinal, camPreNorm,
    computeWeights, matMean, matSum, lsum, camAccum, matAdd, vecAdd, matScale,
    matMax0, onesMat, normalizeCam, matMin, matMax, qdivNp, quantizeMat,
    npUint8, pilResize, boxIdxs, optAvg, optSum, pget, rescale255, ten3H,
    ten3W, List.range_succ, Function.comp]

/-- C3: a target layer index equal to the body length (1, for a one-module
    body) never matches during the forward traversal, so no hook is
    registered; generate_cam then dereferences the absent gradient and fails
    with the obscure NoneType AttributeError, which is not the explicit
    "no activation captured at target layer" error. -/
theorem invalid_target_layer_attribute_error :
    generate_cam [fun x => x] 1 (fun fs _ => [lsum fs]) false
        (fun _ => [[[0]]]) none [[[5]]] 0 false
      = (Except.error attrErrMsg, none)
    ∧ attrErrMsg ≠ noActivationMsg := by
  constructor
  · norm_num [generate_cam, forward_pass, forward_pass_on_convolutions,
      fpocAux, flatten3, lflat, torchOneHot, oneHotVec]
  · decide

/-- C4 counterexample: a run with a valid target class (0, of 2 classes)
    whose gradients are all zero: the returned map's entries are the
    undefined NaN marker, so not every value of the returned array is a
    number in [0, 1]. -/
theorem unit_interval_fails_on_degenerate_run :
    (generate_cam [fun x => x] 0 (fun fs _ => [lsum fs, 0]) false
        (fun _ => [[[0, 0], [0, 0]]]) none [[[1, 2], [3, 4]]] 0 false).1
      = Except.ok [[none, none], [none, none]]
    ∧ ¬ inUnit (mgetO [[none, none], [none, none]] 0 0) := by
  constructor
  · norm_num [generate_cam, forward_pass, forward_pass_on_convolutions,
      fpocAux, flatten3, lflat, torchOneHot, oneHotVec, camFinal, camPreNorm,
      computeWeights, matMean, matSum, lsum, camAccum, matAdd, vecAdd,
      matScale, matMax0, onesMat, normalizeCam, matMin, matMax, qdivNp,
      quantizeMat, npUint8, pilResize, boxIdxs, optAvg, optSum, pget,
      rescale255, ten3H, ten3W, List.range_succ, Function.comp]
  · simp [inUnit, mgetO]

/-- C4 (amended): for every run that reaches the main path (activation
    captured, valid target class) whose rectified accumulator is
    non-degenerate (min different from max), every value of the returned 2D
    array is a defined number in the closed interval [0, 1]. -/
theorem generate_cam_values_in_unit_interval (model : List (Ten3 → Ten3))
    (target_layer : ℤ) (head : List ℚ → Option ℤ → List ℚ)
    (feed_target : Bool) (backward : List ℚ → Ten3) (grads0 : Option Ten3)
    (input : Ten3) (target_class : ℤ) (counterfactual : Bool) (act : Ten3)
    (oh : List ℚ) (h w : ℕ)
    (hconv : (forward_pass model target_layer head feed_target input
        target_class).1 = some act)
    (hoh : torchOneHot (forward_pass model target_layer head feed_target
        input target_class).2.length target_class = Except.ok oh)
    (hne : act ≠ []) (hsh : ∀ m ∈ act, isShape m h w)
    (hh : 1 ≤ h) (hw : 1 ≤ w)
    (hdeg : matMin (camPreNorm
          (if counterfactual then neg3 (backward oh) else backward oh) act)
        ≠ matMax (camPreNorm
          (if counterfactual then neg3 (backward oh) else backward oh) act)) :
    ∃ M, (generate_cam model target_layer head feed_target backward grads0
        input target_class counterfactual).1 = Except.ok M
      ∧ ∀ r c, r < M.length → c < (M.getD r []).length →
          inUnit (mgetO M r c) := by
  have hcamshape : isShape (camPreNorm
      (if counterfactual then neg3 (backward oh) else backward oh) act) h w :=
    camPreNorm_isShape hne hsh hh
  obtain ⟨hshape, hvals⟩ :=
    camFinal_inUnit (ten3H input, ten3W input) hcamshape hh hw hdeg
  refine ⟨camFinal (camPreNorm
      (if counterfactual then neg3 (backward oh) else backward oh) act)
      (ten3H input, ten3W input), ?_, ?_⟩
  · unfold generate_cam
    rw [hoh, hconv]
  · intro r c hr hc
    obtain ⟨hlen, hrow⟩ := hshape
    have hr2 : r < ten3W input := by
      rw [hlen] at hr; exact hr
    have hc2 : c < ten3H input := by
      have hrlen : r < (camFinal (camPreNorm
          (if counterfactual then neg3 (backward oh) else backward oh) act)
          (ten3H input, ten3W input)).length := by omega
      have hmem : (camFinal (camPreNorm
          (if counterfactual then neg3 (backward oh) else backward oh) act)
          (ten3H input, ten3W input)).getD r [] ∈ camFinal (camPreNorm
          (if counterfactual then neg3 (backward oh) else backward oh) act)
          (ten3H input, ten3W input) := by
        rw [List.getD_eq_getElem _ [] hrlen]
        exact List.getElem_mem hrlen
      rw [hrow _ hmem] at hc
      exact hc
    exact hvals r c hr2 hc2

/-- C4 witness: the amended statement applied to a concrete non-degenerate
    run (activation [[0, 1]], gradient all 2). -/
theorem generate_cam_values_in_unit_interval_witness :
    matMin (camPreNorm [[[2, 2]]] [[[0, 1]]])
      ≠ matMax (camPreNorm [[[2, 2]]] [[[0, 1]]])
    ∧ ∃ M, (generate_cam [fun x => x] 0 (fun fs _ => [lsum fs]) false
        (fun _ => [[[2, 2]]]) none [[[0, 1]]] 0 false).1 = Except.ok M
      ∧ ∀ r c, r < M.length → c < (M.getD r []).length →
          inUnit (mgetO M r c) :=
  ⟨by norm_num [camPreNorm, camAccum, computeWeights, matMean, matSum, lsum,
      matAdd, vecAdd, matScale, matMax0, onesMat, matMin, matMax, lflat,
      ten3H, ten3W],
   generate_cam_values_in_unit_interval [fun x => x] 0 (fun fs _ => [lsum fs])
     false (fun _ => [[[2, 2]]]) none [[[0, 1]]] 0 false [[[0, 1]]] [1] 1 2
     rfl (by norm_num [forward_pass, forward_pass_on_convolutions, fpocAux,
       flatten3, lflat, lsum, torchOneHot, oneHotVec, List.range_succ])
     (by norm_num) (by decide) (by norm_num) (by norm_num)
     (by norm_num [camPreNorm, camAccum, computeWeights, matMean, matSum,
       lsum, matAdd, vecAdd, matScale, matMax0, onesMat, matMin, matMax,
       lflat, ten3H, ten3W])⟩
